import Mathlib

/-!
Shallow embedding of src/bulk_file_rename/bulk_file_rename.py.

Filesystem paths are modelled as lists of name components (the components of
an absolute path).  The filesystem itself is modelled as the list of paths of
all currently existing entries.  The module-level mutable state of the Python
file (the variables conflict_log, error_log and reserved_paths) together with
the filesystem is collected in the record ModState, which every operation
threads explicitly.  Machine-level concerns (pandas CSV parsing, printing)
are outside the modelled core: the two mapping tables arrive as lists of
(old_name, new_name) string pairs, exactly the rows the dict comprehensions
iterate over.
-/

/-- Model of a filesystem path: its list of name components. -/
abbrev FsPath := List String

/-- Rendering of a path as a string, as Python string-interpolates a Path. -/
def render (p : FsPath) : String :=
  String.intercalate "/" p

/-- Final name component of a path (pathlib's p.name). -/
def nameOf (p : FsPath) : String :=
  p.getLastD ""

/-- Decimal digit list of a positive number, fuel-bounded recursion mirroring
how Python renders an int in an f-string. -/
def natReprAux : Nat → Nat → List Char
  | 0, _ => []
  | _ + 1, 0 => []
  | fuel + 1, n + 1 => natReprAux fuel ((n + 1) / 10) ++ [Nat.digitChar ((n + 1) % 10)]

/-- Decimal rendering of a natural number, as an f-string renders an int. -/
def natRepr (n : Nat) : String :=
  if n = 0 then "0" else String.mk (natReprAux (n + 1) n)

/-- Characters of the reserved set in the regex of sanitize_filename. -/
def isReservedChar (c : Char) : Bool :=
  c = '<' || c = '>' || c = ':' || c = '\"' || c = '/' || c = '\\' ||
  c = '|' || c = '?' || c = '*'

/-- Model of sanitize_filename: re.sub replaces every character matching the
class with an underscore, all other characters are kept. -/
def sanitize_filename (name : String) : String :=
  String.mk (name.data.map (fun c => if isReservedChar c then '_' else c))

/-- Index of the last dot in a character list, if any (str.rfind of a dot). -/
def lastDotIdx : List Char → Option Nat
  | [] => none
  | c :: rest =>
    match lastDotIdx rest with
    | some i => some (i + 1)
    | none => if c = '.' then some 0 else none

/-- Splitting of a name into pathlib's stem and suffix.  pathlib keeps the
whole name as the stem unless the last dot sits strictly inside the name
(index i with 0 < i < len - 1). -/
def pySplit (n : String) : String × String :=
  match lastDotIdx n.data with
  | some i =>
    if 0 < i ∧ i < n.data.length - 1 then
      (String.mk (n.data.take i), String.mk (n.data.drop i))
    else (n, "")
  | none => (n, "")

/-- Insertion into an association list with overwrite, the behaviour of a
Python dict assignment for one key. -/
def insertOverwrite : List (String × String) → String → String → List (String × String)
  | [], k, v => [(k, v)]
  | (k', v') :: rest, k, v =>
    if k' = k then (k, v) :: rest else (k', v') :: insertOverwrite rest k v

/-- Model of the dict comprehensions of rename_items: every (old, new) row is
inserted in order, the value being the sanitized new name; a later row with a
duplicate key overwrites the earlier one. -/
def buildMap (rows : List (String × String)) : List (String × String) :=
  rows.foldl (fun m kv => insertOverwrite m kv.1 (sanitize_filename kv.2)) []

/-- Key lookup in the built mapping (a Python dict membership test plus
indexing). -/
def lookupMap (m : List (String × String)) (k : String) : Option String :=
  (m.find? (fun kv => kv.1 == k)).map (fun kv => kv.2)

/-- The filesystem plus the module-level mutable variables of the Python
file: reserved_paths, conflict_log and error_log.  The Python module
initializes the three variables empty when it is loaded; no function of the
module ever resets them. -/
structure ModState where
  fs : List FsPath
  reserved_paths : List FsPath
  conflict_log : List String
  error_log : List String
deriving DecidableEq

/-- Candidate path tried by the while loop of get_unique_path at a given
counter value: parent / (stem_counter ++ ext). -/
def candPath (parent : FsPath) (stem ext : String) (c : Nat) : FsPath :=
  parent ++ [stem ++ "_" ++ natRepr c ++ ext]

/-- The while loop of get_unique_path: starting from counter c, the first
candidate that neither exists on disk nor is reserved.  The Python loop is
unbounded; here it carries fuel, and the lemma findFree_total shows the fuel
used by get_unique_path always suffices, so the none case is unreachable. -/
def findFree (fs reserved : List FsPath) (parent : FsPath) (stem ext : String) :
    Nat → Nat → Option FsPath
  | 0, _ => none
  | fuel + 1, c =>
    let cand := candPath parent stem ext c
    if cand ∉ fs ∧ cand ∉ reserved then some cand
    else findFree fs reserved parent stem ext fuel (c + 1)

/-- Model of get_unique_path.  If the desired path neither exists nor is
reserved it is claimed and returned unchanged; otherwise candidates
stem_1, stem_2, ... (with the pathlib suffix of the desired name kept) are
tried, the first free one is claimed, and a conflict-log line is appended. -/
def get_unique_path (s : ModState) (old_file_path new_file_path : FsPath) :
    FsPath × ModState :=
  if new_file_path ∉ s.fs ∧ new_file_path ∉ s.reserved_paths then
    (new_file_path, { s with reserved_paths := new_file_path :: s.reserved_paths })
  else
    let nm := nameOf new_file_path
    let stem := (pySplit nm).1
    let ext := (pySplit nm).2
    let parent := new_file_path.dropLast
    match findFree s.fs s.reserved_paths parent stem ext
        (s.fs.length + s.reserved_paths.length + 1) 1 with
    | some cand =>
      (cand,
        { s with
          reserved_paths := cand :: s.reserved_paths,
          conflict_log := s.conflict_log ++
            ["Renaming: " ++ render old_file_path ++ " -> " ++ nameOf cand ++
              " to avoid conflict"] })
    | none => (new_file_path, s)

mutual
/-- A directory of the input tree: its name, the names of the plain files it
directly contains, and its subdirectories. -/
inductive FSTree : Type where
  | node (name : String) (files : List String) (dirs : FSForest)

/-- An ordered listing of sibling directories (the order os.scandir reports). -/
inductive FSForest : Type where
  | nil : FSForest
  | cons (hd : FSTree) (tl : FSForest) : FSForest
end

/-- Name of a directory node. -/
def FSTree.name : FSTree → String
  | .node n _ _ => n

/-- Names of the directories of a forest, in listing order. -/
def dirNames : FSForest → List String
  | .nil => []
  | .cons (.node n _ _) ds => n :: dirNames ds

/-- Well-formedness of a forest: sibling directory names are distinct, at
every level (true of any real directory tree). -/
def wfF : FSForest → Bool
  | .nil => true
  | .cons (.node n _ dirs) ds =>
    wfF dirs && decide (n ∉ dirNames ds) && wfF ds

/-- Well-formedness of a tree: its forest of subdirectories is well formed. -/
def wfT : FSTree → Bool
  | .node _ _ dirs => wfF dirs

/-- One tuple yielded by os.walk: the path of the directory being visited,
the names of its subdirectories and the names of its files. -/
structure WalkEntry where
  root : FsPath
  dirs : List String
  files : List String
deriving DecidableEq

/-- Bottom-up walk of a forest whose members live directly under path p:
os.walk with topdown=False emits, for each subdirectory in listing order, the
walk of its whole subtree (children first), the subtree root last. -/
def walkForest (p : FsPath) : FSForest → List WalkEntry
  | .nil => []
  | .cons (.node n files dirs) ds =>
    (walkForest (p ++ [n]) dirs ++ [⟨p ++ [n], dirNames dirs, files⟩]) ++
      walkForest p ds

/-- Bottom-up walk of the tree rooted at path p: all entries for descendants
first, the entry of the root itself last. -/
def walkBU (p : FsPath) : FSTree → List WalkEntry
  | .node _ files dirs => walkForest p dirs ++ [⟨p, dirNames dirs, files⟩]

/-- Trace record of one processed entry: the kind of entry, the path it had
when processed, and the deconflicted destination returned by
get_unique_path. -/
structure Ev where
  isDir : Bool
  old : FsPath
  chosen : FsPath
deriving DecidableEq

/-- State carried through the traversal of rename_items: the module state,
the two per-run counters (locals of rename_items), and the ghost trace of
processed entries (the order in which renames are attempted). -/
structure WalkState where
  st : ModState
  file_counter : Nat
  folder_counter : Nat
  trace : List Ev
deriving DecidableEq

/-- Effect of a successful os-level rename on the filesystem: the renamed
entry and everything below it moves from under the old path to under the new
path. -/
def renamePath (fs : List FsPath) (old new_ : FsPath) : List FsPath :=
  fs.map (fun q => if old <+: q then new_ ++ q.drop old.length else q)

/-- Error-log line appended when renaming a file raises, with the original
path, the attempted new name and the underlying cause. -/
def fileErrMsg (old chosen : FsPath) (cause : String) : String :=
  "Failed to rename file " ++ render old ++ " -> " ++ nameOf chosen ++ ": " ++ cause

/-- Error-log line appended when renaming a folder raises. -/
def dirErrMsg (old chosen : FsPath) (cause : String) : String :=
  "Failed to rename folder " ++ render old ++ " -> " ++ nameOf chosen ++ ": " ++ cause

/-- Processing of one file name of a walk tuple.  rerr is the environment's
failure oracle: rerr old new = some cause means the os-level rename raises
with that cause, none means it succeeds.  Mirrors the file loop body:
stem lookup, destination construction, deconfliction, counter increment, and
in execute mode the guarded rename with its try/except. -/
def fileStep (fm : List (String × String)) (dry_run : Bool)
    (rerr : FsPath → FsPath → Option String) (root : FsPath) (fname : String)
    (w : WalkState) : WalkState :=
  match lookupMap fm (pySplit fname).1 with
  | none => w
  | some mapped =>
    let old := root ++ [fname]
    let desired := root ++ [mapped ++ (pySplit fname).2]
    let res := get_unique_path w.st old desired
    let w1 : WalkState :=
      { st := res.2, file_counter := w.file_counter + 1,
        folder_counter := w.folder_counter,
        trace := w.trace ++ [⟨false, old, res.1⟩] }
    if dry_run then w1
    else
      match rerr old res.1 with
      | none => { w1 with st := { w1.st with fs := renamePath w1.st.fs old res.1 } }
      | some cause =>
        { w1 with st :=
            { w1.st with error_log := w1.st.error_log ++ [fileErrMsg old res.1 cause] } }

/-- Processing of one directory name of a walk tuple (the folder loop body). -/
def dirStep (dm : List (String × String)) (dry_run : Bool)
    (rerr : FsPath → FsPath → Option String) (root : FsPath) (dname : String)
    (w : WalkState) : WalkState :=
  match lookupMap dm dname with
  | none => w
  | some mapped =>
    let old := root ++ [dname]
    let desired := root ++ [mapped]
    let res := get_unique_path w.st old desired
    let w1 : WalkState :=
      { st := res.2, file_counter := w.file_counter,
        folder_counter := w.folder_counter + 1,
        trace := w.trace ++ [⟨true, old, res.1⟩] }
    if dry_run then w1
    else
      match rerr old res.1 with
      | none => { w1 with st := { w1.st with fs := renamePath w1.st.fs old res.1 } }
      | some cause =>
        { w1 with st :=
            { w1.st with error_log := w1.st.error_log ++ [dirErrMsg old res.1 cause] } }

/-- The file loop over one walk tuple. -/
def runFiles (fm : List (String × String)) (dry_run : Bool)
    (rerr : FsPath → FsPath → Option String) (root : FsPath) :
    List String → WalkState → WalkState
  | [], w => w
  | f :: rest, w => runFiles fm dry_run rerr root rest (fileStep fm dry_run rerr root f w)

/-- The folder loop over one walk tuple. -/
def runDirs (dm : List (String × String)) (dry_run : Bool)
    (rerr : FsPath → FsPath → Option String) (root : FsPath) :
    List String → WalkState → WalkState
  | [], w => w
  | d :: rest, w => runDirs dm dry_run rerr root rest (dirStep dm dry_run rerr root d w)

/-- Processing of one walk tuple: files first, then directories, as in the
source. -/
def runEntry (fm dm : List (String × String)) (dry_run : Bool)
    (rerr : FsPath → FsPath → Option String) (e : WalkEntry) (w : WalkState) :
    WalkState :=
  runDirs dm dry_run rerr e.root e.dirs (runFiles fm dry_run rerr e.root e.files w)

/-- The traversal loop of rename_items over the whole walk. -/
def runWalk (fm dm : List (String × String)) (dry_run : Bool)
    (rerr : FsPath → FsPath → Option String) :
    List WalkEntry → WalkState → WalkState
  | [], w => w
  | e :: rest, w => runWalk fm dm dry_run rerr rest (runEntry fm dm dry_run rerr e w)

/-- Model of rename_items.  The mapping tables arrive as row lists, the tree
rooted at rootPath describes the directory structure os.walk enumerates, and
s is the module state (filesystem plus the three module globals) when the
call starts — rename_items itself never resets the globals.  Returns the two
counters, the final module state, and the trace of processed entries. -/
def rename_items (rootPath : FsPath) (t : FSTree)
    (fileRows folderRows : List (String × String)) (dry_run : Bool)
    (rerr : FsPath → FsPath → Option String) (s : ModState) :
    (Nat × Nat) × ModState × List Ev :=
  let fm := buildMap fileRows
  let dm := buildMap folderRows
  let w := runWalk fm dm dry_run rerr (walkBU rootPath t) ⟨s, 0, 0, []⟩
  ((w.file_counter, w.folder_counter), w.st, w.trace)

/-- Old paths of the entries a walk tuple will process, in processing order:
the files whose stem is a key of the file mapping, then the directories whose
name is a key of the folder mapping.  This is a pure function of the tuple
and the mappings; the trace of a run projects onto it. -/
def plannedOlds (fm dm : List (String × String)) (e : WalkEntry) : List FsPath :=
  (e.files.filter (fun f => (lookupMap fm (pySplit f).1).isSome)).map
      (fun f => e.root ++ [f]) ++
    (e.dirs.filter (fun d => (lookupMap dm d).isSome)).map (fun d => e.root ++ [d])

/-- Relation between two attempted old paths: the first is not a strict
ancestor (proper path prefix) of the second.  A list of rename events that is
pairwise in this relation never attempts a directory before anything inside
that directory. -/
abbrev noAnc (x y : FsPath) : Prop := ¬ (x <+: y ∧ x ≠ y)

/-- Failure oracle of a machine on which every rename succeeds. -/
def okAll : FsPath → FsPath → Option String := fun _ _ => none

/-- Concrete two-file tree used by counterexamples: a root directory holding
a.txt and b.txt. -/
def tSwap : FSTree := .node "r" ["a.txt", "b.txt"] .nil

/-- Filesystem matching tSwap rooted at path r. -/
def fsSwap : List FsPath := [["r"], ["r", "a.txt"], ["r", "b.txt"]]

/-- Module state at process start (all three globals empty) over fsSwap. -/
def s0Swap : ModState := ⟨fsSwap, [], [], []⟩

/-- File mapping rows swapping the stems a and b. -/
def rowsSwap : List (String × String) := [("a", "b"), ("b", "a")]

/-- Concrete one-file tree: a root directory holding a.txt only. -/
def tOne : FSTree := .node "r" ["a.txt"] .nil

/-- Filesystem for tOne in which b.txt also already exists on disk. -/
def fsOne : List FsPath := [["r"], ["r", "a.txt"], ["r", "b.txt"]]

/-- Fresh module state over fsOne. -/
def s0One : ModState := ⟨fsOne, [], [], []⟩

/-- File mapping rows renaming stem a to b. -/
def rowsOne : List (String × String) := [("a", "b")]

/-- Value of a decimal digit string read back as a number (used to invert
natRepr). -/
def charsToNat (l : List Char) : Nat :=
  l.foldl (fun a c => a * 10 + (c.toNat - 48)) 0

/-! ## Helper lemmas -/

theorem charsToNat_append_digit (l : List Char) (c : Char) :
    charsToNat (l ++ [c]) = charsToNat l * 10 + (c.toNat - 48) := by
  simp [charsToNat, List.foldl_append]

theorem natReprAux_val : ∀ fuel n, n < fuel → charsToNat (natReprAux fuel n) = n := by
  intro fuel
  induction fuel with
  | zero => intro n h; omega
  | succ f ih =>
    intro n h
    match n with
    | 0 => simp [natReprAux, charsToNat]
    | m + 1 =>
      rw [natReprAux, charsToNat_append_digit]
      have h1 : (m + 1) / 10 < m + 1 := Nat.div_lt_self (Nat.succ_pos m) (by norm_num)
      have hq : (m + 1) / 10 < f := by omega
      rw [ih _ hq]
      have hr : (m + 1) % 10 < 10 := Nat.mod_lt _ (by norm_num)
      have hd : ∀ r, r < 10 → (Nat.digitChar r).toNat - 48 = r := by decide
      rw [hd _ hr]
      omega

theorem natRepr_val (n : Nat) : charsToNat (natRepr n).data = n := by
  by_cases h : n = 0
  · subst h; decide
  · simp only [natRepr, h, if_false]
    exact natReprAux_val (n + 1) n (Nat.lt_succ_self n)

theorem natRepr_data_inj {a b : Nat} (h : (natRepr a).data = (natRepr b).data) :
    a = b := by
  have h2 := congrArg charsToNat h
  rwa [natRepr_val, natRepr_val] at h2

theorem candPath_inj {parent : FsPath} {stem ext : String} :
    Function.Injective (candPath parent stem ext) := by
  intro a b h
  unfold candPath at h
  have h1 : stem ++ "_" ++ natRepr a ++ ext = stem ++ "_" ++ natRepr b ++ ext := by
    have h0 := List.append_cancel_left h
    simpa using h0
  have h2 := congrArg String.data h1
  simp only [String.data_append] at h2
  have h3 := List.append_cancel_right h2
  have h4 := List.append_cancel_left h3
  exact natRepr_data_inj h4

theorem findFree_mem_of_none {fs res : List FsPath} {parent : FsPath} {stem ext : String} :
    ∀ fuel c, findFree fs res parent stem ext fuel c = none →
      ∀ k, c ≤ k → k < c + fuel →
        candPath parent stem ext k ∈ fs ∨ candPath parent stem ext k ∈ res := by
  intro fuel
  induction fuel with
  | zero => intro c _ k _ h2; omega
  | succ f ih =>
    intro c h k hk1 hk2
    rw [findFree] at h
    by_cases hc : candPath parent stem ext c ∉ fs ∧ candPath parent stem ext c ∉ res
    · simp [hc] at h
    · simp only [hc, if_false] at h
      rcases Nat.eq_or_lt_of_le hk1 with rfl | hlt
      · tauto
      · exact ih (c + 1) h k hlt (by omega)

theorem findFree_spec {fs res : List FsPath} {parent : FsPath} {stem ext : String} :
    ∀ fuel c cand, findFree fs res parent stem ext fuel c = some cand →
      cand ∉ fs ∧ cand ∉ res ∧ ∃ k, c ≤ k ∧ cand = candPath parent stem ext k := by
  intro fuel
  induction fuel with
  | zero => intro c cand h; simp [findFree] at h
  | succ f ih =>
    intro c cand h
    rw [findFree] at h
    by_cases hc : candPath parent stem ext c ∉ fs ∧ candPath parent stem ext c ∉ res
    · simp only [hc, if_true] at h
      cases h
      exact ⟨hc.1, hc.2, c, Nat.le_refl c, rfl⟩
    · simp only [hc, if_false] at h
      obtain ⟨h1, h2, k, hk, hck⟩ := ih (c + 1) cand h
      exact ⟨h1, h2, k, by omega, hck⟩

theorem exists_free (fs res : List FsPath) (parent : FsPath) (stem ext : String) :
    ∃ k, 1 ≤ k ∧ k < 1 + (fs.length + res.length + 1) ∧
      candPath parent stem ext k ∉ fs ∧ candPath parent stem ext k ∉ res := by
  by_contra hcon
  push_neg at hcon
  have hsub : (List.range' 1 (fs.length + res.length + 1)).map (candPath parent stem ext) ⊆
      fs ++ res := by
    intro x hx
    simp only [List.mem_map] at hx
    obtain ⟨k, hk, rfl⟩ := hx
    rw [List.mem_range'_1] at hk
    have h3 := hcon k hk.1 (by omega)
    rcases Decidable.em (candPath parent stem ext k ∈ fs) with h | h
    · exact List.mem_append.2 (Or.inl h)
    · exact List.mem_append.2 (Or.inr (h3 h))
  have hnd : ((List.range' 1 (fs.length + res.length + 1)).map
      (candPath parent stem ext)).Nodup :=
    List.Nodup.map candPath_inj (List.nodup_range' 1 (fs.length + res.length + 1) 1 one_pos)
  have hle : ((List.range' 1 (fs.length + res.length + 1)).map
        (candPath parent stem ext)).length ≤ (fs ++ res).length := by
    calc ((List.range' 1 (fs.length + res.length + 1)).map
          (candPath parent stem ext)).length
        = ((List.range' 1 (fs.length + res.length + 1)).map
          (candPath parent stem ext)).toFinset.card :=
          (List.toFinset_card_of_nodup hnd).symm
      _ ≤ (fs ++ res).toFinset.card := by
          apply Finset.card_le_card
          intro x hx
          rw [List.mem_toFinset] at hx ⊢
          exact hsub hx
      _ ≤ (fs ++ res).length := List.toFinset_card_le (fs ++ res)
  simp only [List.length_map, List.length_range', List.length_append] at hle
  omega

theorem findFree_total (fs res : List FsPath) (parent : FsPath) (stem ext : String) :
    findFree fs res parent stem ext (fs.length + res.length + 1) 1 ≠ none := by
  intro h
  obtain ⟨k, hk1, hk2, hnf, hnr⟩ := exists_free fs res parent stem ext
  rcases findFree_mem_of_none _ _ h k hk1 hk2 with h1 | h1
  · exact hnf h1
  · exact hnr h1

theorem gup_spec (s : ModState) (old nw : FsPath) :
    (get_unique_path s old nw).1 ∉ s.fs ∧
    (get_unique_path s old nw).1 ∉ s.reserved_paths ∧
    (get_unique_path s old nw).2.reserved_paths =
      (get_unique_path s old nw).1 :: s.reserved_paths ∧
    (get_unique_path s old nw).2.fs = s.fs ∧
    (get_unique_path s old nw).2.error_log = s.error_log ∧
    ∃ tail, (get_unique_path s old nw).2.conflict_log = s.conflict_log ++ tail := by
  by_cases h : nw ∉ s.fs ∧ nw ∉ s.reserved_paths
  · rw [get_unique_path, if_pos h]
    refine ⟨h.1, h.2, ?_, ?_, ?_, ?_⟩ <;> first | trivial | exact ⟨[], by simp⟩
  · rcases hf : findFree s.fs s.reserved_paths nw.dropLast (pySplit (nameOf nw)).1
        (pySplit (nameOf nw)).2 (s.fs.length + s.reserved_paths.length + 1) 1 with _ | cand
    · exact absurd hf (findFree_total _ _ _ _ _)
    · obtain ⟨h1, h2, _⟩ := findFree_spec _ _ _ hf
      rw [get_unique_path, if_neg h]
      simp only [hf]
      refine ⟨h1, h2, ?_, ?_, ?_, ?_⟩ <;> first | trivial | exact ⟨_, rfl⟩

theorem gup_dropLast (s : ModState) (old nw : FsPath) :
    ((get_unique_path s old nw).1).dropLast = nw.dropLast := by
  by_cases h : nw ∉ s.fs ∧ nw ∉ s.reserved_paths
  · rw [get_unique_path, if_pos h]
  · rcases hf : findFree s.fs s.reserved_paths nw.dropLast (pySplit (nameOf nw)).1
        (pySplit (nameOf nw)).2 (s.fs.length + s.reserved_paths.length + 1) 1 with _ | cand
    · exact absurd hf (findFree_total _ _ _ _ _)
    · obtain ⟨_, _, k, _, hck⟩ := findFree_spec _ _ _ hf
      rw [get_unique_path, if_neg h]
      simp only [hf]
      rw [hck]
      exact List.dropLast_concat

theorem sanChar_idem (c : Char) :
    (if isReservedChar (if isReservedChar c then '_' else c) then '_'
      else if isReservedChar c then '_' else c) =
      if isReservedChar c then '_' else c := by
  by_cases h : isReservedChar c
  · have h2 : isReservedChar '_' = false := by decide
    simp [h, h2]
  · simp [h]

theorem getD_map_lt (l : List Char) (f : Char → Char) (i : Nat) (h : i < l.length) :
    (l.map f).getD i ' ' = f (l.getD i ' ') := by
  rw [List.getD_eq_getElem?_getD, List.getD_eq_getElem?_getD, List.getElem?_map,
    List.getElem?_eq_getElem h]
  rfl

theorem lookup_insertOverwrite_self (m : List (String × String)) (k v : String) :
    lookupMap (insertOverwrite m k v) k = some v := by
  induction m with
  | nil => simp [insertOverwrite, lookupMap]
  | cons kv rest ih =>
    obtain ⟨k', v'⟩ := kv
    by_cases h : k' = k
    · subst h
      simp [insertOverwrite, lookupMap]
    · rw [insertOverwrite, if_neg h]
      simp only [lookupMap, List.find?]
      have hb : (k' == k) = false := by simp [h]
      rw [hb]
      exact ih

theorem lookup_insertOverwrite_other (m : List (String × String)) {k k' : String}
    (v : String) (h : k' ≠ k) :
    lookupMap (insertOverwrite m k' v) k = lookupMap m k := by
  induction m with
  | nil =>
    simp only [insertOverwrite, lookupMap, List.find?]
    have hb : (k' == k) = false := by simp [h]
    rw [hb]
  | cons kv rest ih =>
    obtain ⟨k'', v''⟩ := kv
    by_cases h2 : k'' = k'
    · subst h2
      rw [insertOverwrite, if_pos rfl]
      simp only [lookupMap, List.find?]
      have hb : (k'' == k) = false := by simp [h]
      rw [hb]
    · rw [insertOverwrite, if_neg h2]
      simp only [lookupMap, List.find?]
      rcases hb : (k'' == k) with _ | _
      · exact ih
      · rfl

theorem lookup_foldl_no_key (l : List (String × String)) (m : List (String × String))
    (k : String) (h : ∀ kv ∈ l, kv.1 ≠ k) :
    lookupMap (l.foldl (fun m kv => insertOverwrite m kv.1 (sanitize_filename kv.2)) m) k =
      lookupMap m k := by
  induction l generalizing m with
  | nil => rfl
  | cons kv rest ih =>
    rw [List.foldl_cons]
    rw [ih _ (fun x hx => h x (List.mem_cons_of_mem _ hx))]
    exact lookup_insertOverwrite_other m _ (h kv (List.mem_cons_self _ _))

/-! ## Claim theorems -/

/-- C7: last-write-wins mapping.  When the rows of a mapping table contain a
duplicate old_name key (here the key a appears with value b and later with
value c, and no row after the second occurrence uses the key again), the
lookup mapping built by rename_items resolves the key to the sanitized later
value c. -/
theorem C7_last_write_wins (l1 l2 l3 : List (String × String)) (a b c : String)
    (h : ∀ kv ∈ l3, kv.1 ≠ a) :
    lookupMap (buildMap (l1 ++ (a, b) :: (l2 ++ (a, c) :: l3))) a =
      some (sanitize_filename c) := by
  unfold buildMap
  rw [show l1 ++ (a, b) :: (l2 ++ (a, c) :: l3) =
      ((l1 ++ (a, b) :: l2) ++ [(a, c)]) ++ l3 by simp]
  rw [List.foldl_append]
  rw [lookup_foldl_no_key l3 _ a h]
  rw [List.foldl_append, List.foldl_cons, List.foldl_nil]
  exact lookup_insertOverwrite_self _ a (sanitize_filename c)

/-- C7 witness: with the concrete table A maps to B, A maps to C, x maps to y,
the built mapping sends A to the sanitized C. -/
theorem C7_last_write_wins_witness :
    (∀ kv ∈ [("x", "y")], Prod.fst kv ≠ "A") ∧
      lookupMap (buildMap ([] ++ ("A", "B") :: ([] ++ ("A", "C") :: [("x", "y")]))) "A" =
        some (sanitize_filename "C") :=
  ⟨by decide, C7_last_write_wins [] [] [("x", "y")] "A" "B" "C" (by decide)⟩

/-- C9: the sanitizer replaces exactly the reserved characters by an
underscore (all other characters, and the length, are preserved position by
position) and is idempotent. -/
theorem C9_sanitize_correct_idempotent (s : String) :
    sanitize_filename (sanitize_filename s) = sanitize_filename s ∧
    (sanitize_filename s).data.length = s.data.length ∧
    ∀ i, i < s.data.length →
      (isReservedChar (s.data.getD i ' ') = true →
        (sanitize_filename s).data.getD i ' ' = '_') ∧
      (isReservedChar (s.data.getD i ' ') = false →
        (sanitize_filename s).data.getD i ' ' = s.data.getD i ' ') := by
  refine ⟨?_, ?_, ?_⟩
  · show String.mk ((s.data.map _).map _) = String.mk (s.data.map _)
    rw [List.map_map]
    congr 1
    have hc : ((fun c => if isReservedChar c then '_' else c) ∘
        fun c => if isReservedChar c then '_' else c) =
        fun c => if isReservedChar c then '_' else c := funext fun c => sanChar_idem c
    rw [hc]
  · simp [sanitize_filename]
  · intro i hi
    have hm := getD_map_lt s.data (fun c => if isReservedChar c then '_' else c) i hi
    constructor
    · intro hres
      show (s.data.map _).getD i ' ' = '_'
      rw [hm]
      show (if isReservedChar (s.data.getD i ' ') = true then '_'
        else s.data.getD i ' ') = '_'
      rw [hres, if_pos rfl]
    · intro hres
      show (s.data.map _).getD i ' ' = s.data.getD i ' '
      rw [hm]
      show (if isReservedChar (s.data.getD i ' ') = true then '_'
        else s.data.getD i ' ') = s.data.getD i ' '
      rw [hres]
      simp

/-- C9 witness: on the string a<b the reserved character at index 1 becomes
an underscore and sanitizing twice equals sanitizing once. -/
theorem C9_sanitize_witness :
    1 < "a<b".data.length ∧ (sanitize_filename "a<b").data.getD 1 ' ' = '_' ∧
      sanitize_filename (sanitize_filename "a<b") = sanitize_filename "a<b" :=
  ⟨by decide,
    ((C9_sanitize_correct_idempotent "a<b").2.2 1 (by decide)).1 (by decide),
    (C9_sanitize_correct_idempotent "a<b").1⟩

/-- C10: deconfliction preserves the location.  Whatever branch
get_unique_path takes, the returned path has the same parent (all components
but the last) as the desired destination path: only the final name component
is ever altered. -/
theorem C10_deconfliction_same_parent (s : ModState) (old nw : FsPath) :
    ((get_unique_path s old nw).1).dropLast = nw.dropLast :=
  gup_dropLast s old nw

/-- C8 counterexample: the destination directory name A.B already exists, so
the desired folder destination r/A.B is deconflicted; the code splits the
directory name at its last dot exactly as it does for files and produces
A_1.B, not the full-name form A.B_1 the claim requires for directories. -/
theorem C8_counterexample :
    ((rename_items ["r"] (.node "r" [] (.cons (.node "X" [] .nil)
        (.cons (.node "A.B" [] .nil) .nil))) [] [("X", "A.B")] true okAll
        ⟨[["r"], ["r", "X"], ["r", "A.B"]], [], [], []⟩).2.2.map Ev.chosen) =
      [["r", "A_1.B"]] ∧ (["r", "A_1.B"] : FsPath) ≠ ["r", "A.B_1"] := by
  constructor
  · decide
  · decide

/-- C8 amended: whenever the desired destination collides (it exists on disk
or is already reserved), the returned path is parent / (stem_k ++ ext) for
some counter k at least 1, where stem and ext split the destination's final
name component at its last dot with pathlib's rule — uniformly for files and
directories.  For a dotless directory name ext is empty, so the counter is
appended to the full name; a directory name containing a dot is split like a
file name. -/
theorem C8_amended_candidate_form (s : ModState) (old nw : FsPath)
    (h : nw ∈ s.fs ∨ nw ∈ s.reserved_paths) :
    ∃ k, 1 ≤ k ∧ (get_unique_path s old nw).1 =
      nw.dropLast ++
        [(pySplit (nameOf nw)).1 ++ "_" ++ natRepr k ++ (pySplit (nameOf nw)).2] := by
  have hcond : ¬ (nw ∉ s.fs ∧ nw ∉ s.reserved_paths) := by tauto
  rcases hf : findFree s.fs s.reserved_paths nw.dropLast (pySplit (nameOf nw)).1
      (pySplit (nameOf nw)).2 (s.fs.length + s.reserved_paths.length + 1) 1 with _ | cand
  · exact absurd hf (findFree_total _ _ _ _ _)
  · obtain ⟨_, _, k, hk, hck⟩ := findFree_spec _ _ _ hf
    rw [get_unique_path, if_neg hcond]
    simp only [hf]
    exact ⟨k, hk, by rw [hck]; rfl⟩

/-- C8 witness: with r/A.B existing on disk, the folder destination r/A.B
resolves to a candidate of the stem-counter-ext form (concretely r/A_1.B). -/
theorem C8_amended_witness :
    ((["r", "A.B"] : FsPath) ∈ (⟨[["r"], ["r", "X"], ["r", "A.B"]], [], [], []⟩ :
        ModState).fs ∨
      (["r", "A.B"] : FsPath) ∈ (⟨[["r"], ["r", "X"], ["r", "A.B"]], [], [], []⟩ :
        ModState).reserved_paths) ∧
    ∃ k, 1 ≤ k ∧
      (get_unique_path ⟨[["r"], ["r", "X"], ["r", "A.B"]], [], [], []⟩ ["r", "X"]
          ["r", "A.B"]).1 =
        (["r", "A.B"] : FsPath).dropLast ++
          [(pySplit (nameOf ["r", "A.B"])).1 ++ "_" ++ natRepr k ++
            (pySplit (nameOf ["r", "A.B"])).2] :=
  ⟨Or.inl (by decide),
    C8_amended_candidate_form ⟨[["r"], ["r", "X"], ["r", "A.B"]], [], [], []⟩
      ["r", "X"] ["r", "A.B"] (Or.inl (by decide))⟩

theorem gup_fs (s : ModState) (old nw : FsPath) :
    (get_unique_path s old nw).2.fs = s.fs :=
  (gup_spec s old nw).2.2.2.1

theorem gup_err (s : ModState) (old nw : FsPath) :
    (get_unique_path s old nw).2.error_log = s.error_log :=
  (gup_spec s old nw).2.2.2.2.1

theorem gup_res_eq (s : ModState) (old nw : FsPath) :
    (get_unique_path s old nw).2.reserved_paths =
      (get_unique_path s old nw).1 :: s.reserved_paths :=
  (gup_spec s old nw).2.2.1

theorem gup_not_fs (s : ModState) (old nw : FsPath) :
    (get_unique_path s old nw).1 ∉ s.fs :=
  (gup_spec s old nw).1

theorem gup_not_res (s : ModState) (old nw : FsPath) :
    (get_unique_path s old nw).1 ∉ s.reserved_paths :=
  (gup_spec s old nw).2.1

theorem fileStep_dry (fm : List (String × String)) (rerr : FsPath → FsPath → Option String)
    (root : FsPath) (f : String) (w : WalkState) :
    (fileStep fm true rerr root f w).st.fs = w.st.fs ∧
    (fileStep fm true rerr root f w).st.error_log = w.st.error_log := by
  unfold fileStep
  rcases h : lookupMap fm (pySplit f).1 with _ | mapped
  · exact ⟨rfl, rfl⟩
  · simp only [h, if_true]
    exact ⟨gup_fs _ _ _, gup_err _ _ _⟩

theorem dirStep_dry (dm : List (String × String)) (rerr : FsPath → FsPath → Option String)
    (root : FsPath) (d : String) (w : WalkState) :
    (dirStep dm true rerr root d w).st.fs = w.st.fs ∧
    (dirStep dm true rerr root d w).st.error_log = w.st.error_log := by
  unfold dirStep
  rcases h : lookupMap dm d with _ | mapped
  · exact ⟨rfl, rfl⟩
  · simp only [h, if_true]
    exact ⟨gup_fs _ _ _, gup_err _ _ _⟩

theorem runFiles_dry (fm : List (String × String)) (rerr : FsPath → FsPath → Option String)
    (root : FsPath) : ∀ (l : List String) (w : WalkState),
    (runFiles fm true rerr root l w).st.fs = w.st.fs ∧
    (runFiles fm true rerr root l w).st.error_log = w.st.error_log := by
  intro l
  induction l with
  | nil => exact fun w => ⟨rfl, rfl⟩
  | cons f rest ih =>
    intro w
    rw [runFiles]
    obtain ⟨h1, h2⟩ := ih (fileStep fm true rerr root f w)
    obtain ⟨h3, h4⟩ := fileStep_dry fm rerr root f w
    exact ⟨h1.trans h3, h2.trans h4⟩

theorem runDirs_dry (dm : List (String × String)) (rerr : FsPath → FsPath → Option String)
    (root : FsPath) : ∀ (l : List String) (w : WalkState),
    (runDirs dm true rerr root l w).st.fs = w.st.fs ∧
    (runDirs dm true rerr root l w).st.error_log = w.st.error_log := by
  intro l
  induction l with
  | nil => exact fun w => ⟨rfl, rfl⟩
  | cons d rest ih =>
    intro w
    rw [runDirs]
    obtain ⟨h1, h2⟩ := ih (dirStep dm true rerr root d w)
    obtain ⟨h3, h4⟩ := dirStep_dry dm rerr root d w
    exact ⟨h1.trans h3, h2.trans h4⟩

theorem runWalk_dry (fm dm : List (String × String))
    (rerr : FsPath → FsPath → Option String) : ∀ (l : List WalkEntry) (w : WalkState),
    (runWalk fm dm true rerr l w).st.fs = w.st.fs ∧
    (runWalk fm dm true rerr l w).st.error_log = w.st.error_log := by
  intro l
  induction l with
  | nil => exact fun w => ⟨rfl, rfl⟩
  | cons e rest ih =>
    intro w
    rw [runWalk]
    obtain ⟨h1, h2⟩ := ih (runEntry fm dm true rerr e w)
    obtain ⟨h3, h4⟩ := runDirs_dry dm rerr e.root e.dirs
      (runFiles fm true rerr e.root e.files w)
    obtain ⟨h5, h6⟩ := runFiles_dry fm rerr e.root e.files w
    exact ⟨h1.trans (h3.trans h5), h2.trans (h4.trans h6)⟩

theorem run_dry_invariance (rootPath : FsPath) (t : FSTree)
    (fileRows folderRows : List (String × String))
    (rerr : FsPath → FsPath → Option String) (s : ModState) :
    (rename_items rootPath t fileRows folderRows true rerr s).2.1.fs = s.fs ∧
    (rename_items rootPath t fileRows folderRows true rerr s).2.1.error_log =
      s.error_log := by
  unfold rename_items
  exact runWalk_dry _ _ _ _ _

theorem fileStep_res_suffix (fm : List (String × String)) (dry : Bool)
    (rerr : FsPath → FsPath → Option String) (root : FsPath) (f : String)
    (w : WalkState) :
    w.st.reserved_paths <:+ (fileStep fm dry rerr root f w).st.reserved_paths := by
  unfold fileStep
  rcases h : lookupMap fm (pySplit f).1 with _ | mapped
  · exact ⟨[], rfl⟩
  · simp only [h]
    rcases dry with _ | _
    · simp only [Bool.false_eq_true, if_false]
      rcases hr : rerr (root ++ [f])
          (get_unique_path w.st (root ++ [f]) (root ++ [mapped ++ (pySplit f).2])).1
        with _ | cause
      · simp only [hr]
        exact ⟨[_], (gup_res_eq _ _ _).symm⟩
      · simp only [hr]
        exact ⟨[_], (gup_res_eq _ _ _).symm⟩
    · simp only [if_true]
      exact ⟨[_], (gup_res_eq _ _ _).symm⟩

theorem dirStep_res_suffix (dm : List (String × String)) (dry : Bool)
    (rerr : FsPath → FsPath → Option String) (root : FsPath) (d : String)
    (w : WalkState) :
    w.st.reserved_paths <:+ (dirStep dm dry rerr root d w).st.reserved_paths := by
  unfold dirStep
  rcases h : lookupMap dm d with _ | mapped
  · exact ⟨[], rfl⟩
  · simp only [h]
    rcases dry with _ | _
    · simp only [Bool.false_eq_true, if_false]
      rcases hr : rerr (root ++ [d])
          (get_unique_path w.st (root ++ [d]) (root ++ [mapped])).1 with _ | cause
      · simp only [hr]
        exact ⟨[_], (gup_res_eq _ _ _).symm⟩
      · simp only [hr]
        exact ⟨[_], (gup_res_eq _ _ _).symm⟩
    · simp only [if_true]
      exact ⟨[_], (gup_res_eq _ _ _).symm⟩

theorem suf_trans {a b c : List FsPath} (h1 : a <:+ b) (h2 : b <:+ c) : a <:+ c := by
  obtain ⟨t1, rfl⟩ := h1
  obtain ⟨t2, rfl⟩ := h2
  exact ⟨t2 ++ t1, List.append_assoc t2 t1 a⟩

theorem runFiles_res_suffix (fm : List (String × String)) (dry : Bool)
    (rerr : FsPath → FsPath → Option String) (root : FsPath) :
    ∀ (l : List String) (w : WalkState),
    w.st.reserved_paths <:+ (runFiles fm dry rerr root l w).st.reserved_paths := by
  intro l
  induction l with
  | nil => exact fun w => ⟨[], rfl⟩
  | cons f rest ih =>
    intro w
    rw [runFiles]
    exact suf_trans (fileStep_res_suffix fm dry rerr root f w)
      (ih (fileStep fm dry rerr root f w))

theorem runDirs_res_suffix (dm : List (String × String)) (dry : Bool)
    (rerr : FsPath → FsPath → Option String) (root : FsPath) :
    ∀ (l : List String) (w : WalkState),
    w.st.reserved_paths <:+ (runDirs dm dry rerr root l w).st.reserved_paths := by
  intro l
  induction l with
  | nil => exact fun w => ⟨[], rfl⟩
  | cons d rest ih =>
    intro w
    rw [runDirs]
    exact suf_trans (dirStep_res_suffix dm dry rerr root d w)
      (ih (dirStep dm dry rerr root d w))

theorem runWalk_res_suffix (fm dm : List (String × String)) (dry : Bool)
    (rerr : FsPath → FsPath → Option String) :
    ∀ (l : List WalkEntry) (w : WalkState),
    w.st.reserved_paths <:+ (runWalk fm dm dry rerr l w).st.reserved_paths := by
  intro l
  induction l with
  | nil => exact fun w => ⟨[], rfl⟩
  | cons e rest ih =>
    intro w
    rw [runWalk]
    exact suf_trans
      (suf_trans (runFiles_res_suffix fm dry rerr e.root e.files w)
        (runDirs_res_suffix dm dry rerr e.root e.dirs
          (runFiles fm dry rerr e.root e.files w)))
      (ih (runEntry fm dm dry rerr e w))

/-- C3 counterexample: on a root holding a.txt and b.txt with the file
mapping a to b and b to a, a preview run records two conflict-log entries
while a live run records only one: in the live run the rename of a.txt frees
the name a.txt before b.txt is processed, so preview deconfliction and
logging do not behave identically to a live run. -/
theorem C3_counterexample :
    (rename_items ["r"] tSwap rowsSwap [] true okAll s0Swap).2.1.conflict_log ≠
      (rename_items ["r"] tSwap rowsSwap [] false okAll s0Swap).2.1.conflict_log := by
  decide

/-- C3 amended: a preview run of rename_items performs no filesystem
mutation and appends no error-log entries; deconfliction and conflict
logging are still performed through the reserved-path set exactly as the
code does in a live run, but their outcome can differ from a live run
because preview existence checks see the unmodified filesystem. -/
theorem C3_preview_no_mutation (rootPath : FsPath) (t : FSTree)
    (fileRows folderRows : List (String × String))
    (rerr : FsPath → FsPath → Option String) (s : ModState) :
    (rename_items rootPath t fileRows folderRows true rerr s).2.1.fs = s.fs ∧
    (rename_items rootPath t fileRows folderRows true rerr s).2.1.error_log =
      s.error_log :=
  run_dry_invariance rootPath t fileRows folderRows rerr s

/-- C4 counterexample: two consecutive preview runs of rename_items in the
same process do not yield identical outputs: the module-level reserved_paths
and conflict_log survive the first call, so the second call resolves the
same collision to b_2.txt instead of b_1.txt and returns a longer conflict
log. -/
theorem C4_counterexample :
    rename_items ["r"] tOne rowsOne [] true okAll
        ((rename_items ["r"] tOne rowsOne [] true okAll s0One).2.1) ≠
      rename_items ["r"] tOne rowsOne [] true okAll s0One := by
  decide

/-- C4 amended: preview determinism holds per process: a preview run does
not change the filesystem, so a second preview run started from a fresh
module state (empty reserved set and logs, as at interpreter start) over the
filesystem left by the first run yields exactly the first run's outputs. -/
theorem C4_preview_determinism_fresh_state (rootPath : FsPath) (t : FSTree)
    (fileRows folderRows : List (String × String))
    (rerr : FsPath → FsPath → Option String) (fs0 : List FsPath) :
    rename_items rootPath t fileRows folderRows true rerr
        ⟨(rename_items rootPath t fileRows folderRows true rerr
            ⟨fs0, [], [], []⟩).2.1.fs, [], [], []⟩ =
      rename_items rootPath t fileRows folderRows true rerr ⟨fs0, [], [], []⟩ := by
  rw [(run_dry_invariance rootPath t fileRows folderRows rerr ⟨fs0, [], [], []⟩).1]

/-- C5 counterexample: rename_items does not start each run with an empty
reserved set: it reads the module-level reserved_paths as it finds it, so a
pre-existing reservation of r/b_1.txt changes the run's outcome.  If the set
were initialized empty at run start, the two results would be equal. -/
theorem C5_counterexample :
    rename_items ["r"] tOne rowsOne [] true okAll
        ⟨fsOne, [["r", "b_1.txt"]], [], []⟩ ≠
      rename_items ["r"] tOne rowsOne [] true okAll s0One := by
  decide

/-- C5 amended: the reserved-path set is module state, initialized empty at
module load and only ever grown: within any single rename_items run the
incoming set is a suffix of (is contained in) the final set, and nothing
removes or resets it — so consecutive runs in one process share it rather
than each owning a fresh empty set. -/
theorem C5_reserved_monotone (rootPath : FsPath) (t : FSTree)
    (fileRows folderRows : List (String × String)) (dry_run : Bool)
    (rerr : FsPath → FsPath → Option String) (s : ModState) :
    s.reserved_paths <:+
      (rename_items rootPath t fileRows folderRows dry_run rerr s).2.1.reserved_paths := by
  exact runWalk_res_suffix (buildMap fileRows) (buildMap folderRows) dry_run rerr
    (walkBU rootPath t) ⟨s, 0, 0, []⟩

/-- C6: per-entry error handling in execute mode.  If the rename of a file
entry fails (the oracle rerr reports a cause), the run still continues with
the remaining entries (processing the rest of the list from an updated
state), the file counter is incremented for the failed entry, exactly one
error-log line is appended — built from the original path, the intended new
name and the underlying cause — and the filesystem is unchanged by the
failed attempt.  The same holds for a directory entry with the folder
counter, and the traversal loop always continues entry by entry. -/
theorem C6_error_handling (fm dm : List (String × String))
    (rerr : FsPath → FsPath → Option String) (root : FsPath)
    (fname dname : String) (rest : List String) (restE : List WalkEntry)
    (e : WalkEntry) (w : WalkState) (mf md cause cause' : String) :
    (lookupMap fm (pySplit fname).1 = some mf →
      rerr (root ++ [fname])
          (get_unique_path w.st (root ++ [fname])
            (root ++ [mf ++ (pySplit fname).2])).1 = some cause →
      ∃ w', runFiles fm false rerr root (fname :: rest) w =
              runFiles fm false rerr root rest w' ∧
        w'.file_counter = w.file_counter + 1 ∧
        w'.st.error_log = w.st.error_log ++
          [fileErrMsg (root ++ [fname])
            (get_unique_path w.st (root ++ [fname])
              (root ++ [mf ++ (pySplit fname).2])).1 cause] ∧
        w'.st.fs = w.st.fs) ∧
    (lookupMap dm dname = some md →
      rerr (root ++ [dname])
          (get_unique_path w.st (root ++ [dname]) (root ++ [md])).1 = some cause' →
      ∃ w'', runDirs dm false rerr root (dname :: rest) w =
              runDirs dm false rerr root rest w'' ∧
        w''.folder_counter = w.folder_counter + 1 ∧
        w''.st.error_log = w.st.error_log ++
          [dirErrMsg (root ++ [dname])
            (get_unique_path w.st (root ++ [dname]) (root ++ [md])).1 cause'] ∧
        w''.st.fs = w.st.fs) ∧
    runWalk fm dm false rerr (e :: restE) w =
      runWalk fm dm false rerr restE (runEntry fm dm false rerr e w) := by
  refine ⟨?_, ?_, rfl⟩
  · intro h hr
    refine ⟨fileStep fm false rerr root fname w, rfl, ?_, ?_, ?_⟩ <;>
      unfold fileStep <;>
      simp only [h, Bool.false_eq_true, if_false, hr] <;>
      simp [gup_err, gup_fs]
  · intro h hr
    refine ⟨dirStep dm false rerr root dname w, rfl, ?_, ?_, ?_⟩ <;>
      unfold dirStep <;>
      simp only [h, Bool.false_eq_true, if_false, hr] <;>
      simp [gup_err, gup_fs]

/-- C6 witness: on a concrete state where every rename fails with cause
Permission denied, the failed file entry a.txt and the failed folder entry X
still increment their counters, append exactly one error line built from the
original path, intended new name and cause, leave the filesystem unchanged,
and processing continues with the remaining entries. -/
theorem C6_error_handling_witness :
    (∃ w', runFiles [("a", "b")] false (fun _ _ => some "Permission denied") ["r"]
          ["a.txt"] ⟨⟨[["r"], ["r", "a.txt"], ["r", "X"]], [], [], []⟩, 0, 0, []⟩ =
        runFiles [("a", "b")] false (fun _ _ => some "Permission denied") ["r"] [] w' ∧
      w'.file_counter = 0 + 1 ∧
      w'.st.error_log = [] ++
        [fileErrMsg ["r", "a.txt"] ["r", "b.txt"] "Permission denied"] ∧
      w'.st.fs = [["r"], ["r", "a.txt"], ["r", "X"]]) ∧
    (∃ w'', runDirs [("X", "Y")] false (fun _ _ => some "Permission denied") ["r"]
          ["X"] ⟨⟨[["r"], ["r", "a.txt"], ["r", "X"]], [], [], []⟩, 0, 0, []⟩ =
        runDirs [("X", "Y")] false (fun _ _ => some "Permission denied") ["r"] [] w'' ∧
      w''.folder_counter = 0 + 1 ∧
      w''.st.error_log = [] ++
        [dirErrMsg ["r", "X"] ["r", "Y"] "Permission denied"] ∧
      w''.st.fs = [["r"], ["r", "a.txt"], ["r", "X"]]) :=
  ⟨(C6_error_handling [("a", "b")] [("X", "Y")] (fun _ _ => some "Permission denied")
      ["r"] "a.txt" "X" [] [] ⟨["r"], [], []⟩
      ⟨⟨[["r"], ["r", "a.txt"], ["r", "X"]], [], [], []⟩, 0, 0, []⟩
      "b" "Y" "Permission denied" "Permission denied").1 (by decide) rfl,
    (C6_error_handling [("a", "b")] [("X", "Y")] (fun _ _ => some "Permission denied")
      ["r"] "a.txt" "X" [] [] ⟨["r"], [], []⟩
      ⟨⟨[["r"], ["r", "a.txt"], ["r", "X"]], [], [], []⟩, 0, 0, []⟩
      "b" "Y" "Permission denied" "Permission denied").2.1 (by decide) rfl⟩

theorem nodup_snoc {α : Type} {l : List α} {a : α} (h : l.Nodup) (ha : a ∉ l) :
    (l ++ [a]).Nodup := by
  apply List.Nodup.append h (List.nodup_singleton a)
  intro x hx hxa
  rw [List.mem_singleton] at hxa
  subst hxa
  exact ha hx

theorem fileStep_inv (fm : List (String × String)) (dry : Bool)
    (rerr : FsPath → FsPath → Option String) (root : FsPath) (f : String)
    (w : WalkState) (h1 : (w.trace.map Ev.chosen).Nodup)
    (h2 : ∀ e ∈ w.trace, e.chosen ∈ w.st.reserved_paths) :
    ((fileStep fm dry rerr root f w).trace.map Ev.chosen).Nodup ∧
    ∀ e ∈ (fileStep fm dry rerr root f w).trace,
      e.chosen ∈ (fileStep fm dry rerr root f w).st.reserved_paths := by
  unfold fileStep
  rcases h : lookupMap fm (pySplit f).1 with _ | mapped
  · exact ⟨h1, h2⟩
  · simp only [h]
    have hch : (get_unique_path w.st (root ++ [f])
        (root ++ [mapped ++ (pySplit f).2])).1 ∉ w.st.reserved_paths :=
      gup_not_res _ _ _
    have hres := gup_res_eq w.st (root ++ [f]) (root ++ [mapped ++ (pySplit f).2])
    have hnotin : (get_unique_path w.st (root ++ [f])
        (root ++ [mapped ++ (pySplit f).2])).1 ∉ w.trace.map Ev.chosen := by
      intro hmem
      obtain ⟨e, he, hech⟩ := List.mem_map.1 hmem
      exact hch (hech ▸ h2 e he)
    have hnodup : ((w.trace ++ [(⟨false, root ++ [f],
        (get_unique_path w.st (root ++ [f])
          (root ++ [mapped ++ (pySplit f).2])).1⟩ : Ev)]).map Ev.chosen).Nodup := by
      rw [List.map_append]
      exact nodup_snoc h1 hnotin
    have hmem : ∀ e ∈ w.trace ++ [(⟨false, root ++ [f],
        (get_unique_path w.st (root ++ [f])
          (root ++ [mapped ++ (pySplit f).2])).1⟩ : Ev)],
        e.chosen ∈ (get_unique_path w.st (root ++ [f])
          (root ++ [mapped ++ (pySplit f).2])).2.reserved_paths := by
      intro e he
      rw [hres]
      rcases List.mem_append.1 he with he1 | he1
      · exact List.mem_cons_of_mem _ (h2 e he1)
      · rw [List.mem_singleton] at he1
        subst he1
        exact List.mem_cons_self _ _
    rcases dry with _ | _
    · simp only [Bool.false_eq_true, if_false]
      rcases hr : rerr (root ++ [f])
          (get_unique_path w.st (root ++ [f]) (root ++ [mapped ++ (pySplit f).2])).1
        with _ | cause <;> simp only [hr] <;> exact ⟨hnodup, hmem⟩
    · simp only [if_true]
      exact ⟨hnodup, hmem⟩

theorem dirStep_inv (dm : List (String × String)) (dry : Bool)
    (rerr : FsPath → FsPath → Option String) (root : FsPath) (d : String)
    (w : WalkState) (h1 : (w.trace.map Ev.chosen).Nodup)
    (h2 : ∀ e ∈ w.trace, e.chosen ∈ w.st.reserved_paths) :
    ((dirStep dm dry rerr root d w).trace.map Ev.chosen).Nodup ∧
    ∀ e ∈ (dirStep dm dry rerr root d w).trace,
      e.chosen ∈ (dirStep dm dry rerr root d w).st.reserved_paths := by
  unfold dirStep
  rcases h : lookupMap dm d with _ | mapped
  · exact ⟨h1, h2⟩
  · simp only [h]
    have hch : (get_unique_path w.st (root ++ [d])
        (root ++ [mapped])).1 ∉ w.st.reserved_paths := gup_not_res _ _ _
    have hres := gup_res_eq w.st (root ++ [d]) (root ++ [mapped])
    have hnotin : (get_unique_path w.st (root ++ [d])
        (root ++ [mapped])).1 ∉ w.trace.map Ev.chosen := by
      intro hmem
      obtain ⟨e, he, hech⟩ := List.mem_map.1 hmem
      exact hch (hech ▸ h2 e he)
    have hnodup : ((w.trace ++ [(⟨true, root ++ [d],
        (get_unique_path w.st (root ++ [d]) (root ++ [mapped])).1⟩ : Ev)]).map
          Ev.chosen).Nodup := by
      rw [List.map_append]
      exact nodup_snoc h1 hnotin
    have hmem : ∀ e ∈ w.trace ++ [(⟨true, root ++ [d],
        (get_unique_path w.st (root ++ [d]) (root ++ [mapped])).1⟩ : Ev)],
        e.chosen ∈ (get_unique_path w.st (root ++ [d])
          (root ++ [mapped])).2.reserved_paths := by
      intro e he
      rw [hres]
      rcases List.mem_append.1 he with he1 | he1
      · exact List.mem_cons_of_mem _ (h2 e he1)
      · rw [List.mem_singleton] at he1
        subst he1
        exact List.mem_cons_self _ _
    rcases dry with _ | _
    · simp only [Bool.false_eq_true, if_false]
      rcases hr : rerr (root ++ [d])
          (get_unique_path w.st (root ++ [d]) (root ++ [mapped])).1
        with _ | cause <;> simp only [hr] <;> exact ⟨hnodup, hmem⟩
    · simp only [if_true]
      exact ⟨hnodup, hmem⟩

theorem runFiles_inv (fm : List (String × String)) (dry : Bool)
    (rerr : FsPath → FsPath → Option String) (root : FsPath) :
    ∀ (l : List String) (w : WalkState), (w.trace.map Ev.chosen).Nodup →
    (∀ e ∈ w.trace, e.chosen ∈ w.st.reserved_paths) →
    ((runFiles fm dry rerr root l w).trace.map Ev.chosen).Nodup ∧
    ∀ e ∈ (runFiles fm dry rerr root l w).trace,
      e.chosen ∈ (runFiles fm dry rerr root l w).st.reserved_paths := by
  intro l
  induction l with
  | nil => exact fun w h1 h2 => ⟨h1, h2⟩
  | cons f rest ih =>
    intro w h1 h2
    rw [runFiles]
    obtain ⟨h3, h4⟩ := fileStep_inv fm dry rerr root f w h1 h2
    exact ih (fileStep fm dry rerr root f w) h3 h4

theorem runDirs_inv (dm : List (String × String)) (dry : Bool)
    (rerr : FsPath → FsPath → Option String) (root : FsPath) :
    ∀ (l : List String) (w : WalkState), (w.trace.map Ev.chosen).Nodup →
    (∀ e ∈ w.trace, e.chosen ∈ w.st.reserved_paths) →
    ((runDirs dm dry rerr root l w).trace.map Ev.chosen).Nodup ∧
    ∀ e ∈ (runDirs dm dry rerr root l w).trace,
      e.chosen ∈ (runDirs dm dry rerr root l w).st.reserved_paths := by
  intro l
  induction l with
  | nil => exact fun w h1 h2 => ⟨h1, h2⟩
  | cons d rest ih =>
    intro w h1 h2
    rw [runDirs]
    obtain ⟨h3, h4⟩ := dirStep_inv dm dry rerr root d w h1 h2
    exact ih (dirStep dm dry rerr root d w) h3 h4

theorem runWalk_inv (fm dm : List (String × String)) (dry : Bool)
    (rerr : FsPath → FsPath → Option String) :
    ∀ (l : List WalkEntry) (w : WalkState), (w.trace.map Ev.chosen).Nodup →
    (∀ e ∈ w.trace, e.chosen ∈ w.st.reserved_paths) →
    ((runWalk fm dm dry rerr l w).trace.map Ev.chosen).Nodup ∧
    ∀ e ∈ (runWalk fm dm dry rerr l w).trace,
      e.chosen ∈ (runWalk fm dm dry rerr l w).st.reserved_paths := by
  intro l
  induction l with
  | nil => exact fun w h1 h2 => ⟨h1, h2⟩
  | cons e rest ih =>
    intro w h1 h2
    rw [runWalk]
    obtain ⟨h3, h4⟩ := runFiles_inv fm dry rerr e.root e.files w h1 h2
    obtain ⟨h5, h6⟩ := runDirs_inv dm dry rerr e.root e.dirs _ h3 h4
    exact ih (runEntry fm dm dry rerr e w) h5 h6

theorem fileStep_dry_notfs (fm : List (String × String))
    (rerr : FsPath → FsPath → Option String) (root : FsPath) (f : String)
    (w : WalkState) (F : List FsPath) (hfs : w.st.fs = F)
    (h2 : ∀ e ∈ w.trace, e.chosen ∉ F) :
    (fileStep fm true rerr root f w).st.fs = F ∧
    ∀ e ∈ (fileStep fm true rerr root f w).trace, e.chosen ∉ F := by
  unfold fileStep
  rcases h : lookupMap fm (pySplit f).1 with _ | mapped
  · exact ⟨hfs, h2⟩
  · simp only [h, if_true]
    refine ⟨(gup_fs _ _ _).trans hfs, ?_⟩
    intro e he
    rcases List.mem_append.1 he with he1 | he1
    · exact h2 e he1
    · rw [List.mem_singleton] at he1
      subst he1
      have := gup_not_fs w.st (root ++ [f]) (root ++ [mapped ++ (pySplit f).2])
      rw [hfs] at this
      exact this

theorem dirStep_dry_notfs (dm : List (String × String))
    (rerr : FsPath → FsPath → Option String) (root : FsPath) (d : String)
    (w : WalkState) (F : List FsPath) (hfs : w.st.fs = F)
    (h2 : ∀ e ∈ w.trace, e.chosen ∉ F) :
    (dirStep dm true rerr root d w).st.fs = F ∧
    ∀ e ∈ (dirStep dm true rerr root d w).trace, e.chosen ∉ F := by
  unfold dirStep
  rcases h : lookupMap dm d with _ | mapped
  · exact ⟨hfs, h2⟩
  · simp only [h, if_true]
    refine ⟨(gup_fs _ _ _).trans hfs, ?_⟩
    intro e he
    rcases List.mem_append.1 he with he1 | he1
    · exact h2 e he1
    · rw [List.mem_singleton] at he1
      subst he1
      have := gup_not_fs w.st (root ++ [d]) (root ++ [mapped])
      rw [hfs] at this
      exact this

theorem runFiles_dry_notfs (fm : List (String × String))
    (rerr : FsPath → FsPath → Option String) (root : FsPath) :
    ∀ (l : List String) (w : WalkState) (F : List FsPath), w.st.fs = F →
    (∀ e ∈ w.trace, e.chosen ∉ F) →
    (runFiles fm true rerr root l w).st.fs = F ∧
    ∀ e ∈ (runFiles fm true rerr root l w).trace, e.chosen ∉ F := by
  intro l
  induction l with
  | nil => exact fun w F h1 h2 => ⟨h1, h2⟩
  | cons f rest ih =>
    intro w F h1 h2
    rw [runFiles]
    obtain ⟨h3, h4⟩ := fileStep_dry_notfs fm rerr root f w F h1 h2
    exact ih (fileStep fm true rerr root f w) F h3 h4

theorem runDirs_dry_notfs (dm : List (String × String))
    (rerr : FsPath → FsPath → Option String) (root : FsPath) :
    ∀ (l : List String) (w : WalkState) (F : List FsPath), w.st.fs = F →
    (∀ e ∈ w.trace, e.chosen ∉ F) →
    (runDirs dm true rerr root l w).st.fs = F ∧
    ∀ e ∈ (runDirs dm true rerr root l w).trace, e.chosen ∉ F := by
  intro l
  induction l with
  | nil => exact fun w F h1 h2 => ⟨h1, h2⟩
  | cons d rest ih =>
    intro w F h1 h2
    rw [runDirs]
    obtain ⟨h3, h4⟩ := dirStep_dry_notfs dm rerr root d w F h1 h2
    exact ih (dirStep dm true rerr root d w) F h3 h4

theorem runWalk_dry_notfs (fm dm : List (String × String))
    (rerr : FsPath → FsPath → Option String) :
    ∀ (l : List WalkEntry) (w : WalkState) (F : List FsPath), w.st.fs = F →
    (∀ e ∈ w.trace, e.chosen ∉ F) →
    (runWalk fm dm true rerr l w).st.fs = F ∧
    ∀ e ∈ (runWalk fm dm true rerr l w).trace, e.chosen ∉ F := by
  intro l
  induction l with
  | nil => exact fun w F h1 h2 => ⟨h1, h2⟩
  | cons e rest ih =>
    intro w F h1 h2
    rw [runWalk]
    obtain ⟨h3, h4⟩ := runFiles_dry_notfs fm rerr e.root e.files w F h1 h2
    obtain ⟨h5, h6⟩ := runDirs_dry_notfs dm rerr e.root e.dirs _ F h3 h4
    exact ih (runEntry fm dm true rerr e w) F h5 h6

/-- C1 counterexample: an execute-mode run on a root holding a.txt and b.txt
with the swap mapping (a to b, b to a) returns the deconflicted paths
r/b_1.txt and then r/a.txt — and r/a.txt is a filesystem entry that existed
before the run started.  get_unique_path only checks existence at call time,
and by then the live run has renamed a.txt away. -/
theorem C1_counterexample :
    ((rename_items ["r"] tSwap rowsSwap [] false okAll s0Swap).2.2.map Ev.chosen) =
      [["r", "b_1.txt"], ["r", "a.txt"]] ∧ (["r", "a.txt"] : FsPath) ∈ s0Swap.fs := by
  constructor
  · decide
  · decide

/-- C1 amended: within a single rename_items run, all paths returned by the
deconflictor are pairwise distinct (in any mode: every returned path is
absent from the reserved set at call time and immediately reserved), and no
returned path equals an entry existing on disk at the moment of its call; in
preview mode the disk never changes, so no returned path equals a
pre-existing filesystem entry.  In execute mode the original claim fails
because an entry renamed away earlier in the run frees its old path. -/
theorem C1_deconfliction_uniqueness (rootPath : FsPath) (t : FSTree)
    (fileRows folderRows : List (String × String)) (dry_run : Bool)
    (rerr : FsPath → FsPath → Option String) (s : ModState) :
    (((rename_items rootPath t fileRows folderRows dry_run rerr s).2.2).map
        Ev.chosen).Nodup ∧
    ∀ e ∈ (rename_items rootPath t fileRows folderRows true rerr s).2.2,
      e.chosen ∉ s.fs := by
  constructor
  · exact (runWalk_inv (buildMap fileRows) (buildMap folderRows) dry_run rerr
      (walkBU rootPath t) ⟨s, 0, 0, []⟩ (by simp) (by simp)).1
  · exact (runWalk_dry_notfs (buildMap fileRows) (buildMap folderRows) rerr
      (walkBU rootPath t) ⟨s, 0, 0, []⟩ s.fs rfl (by simp)).2

/-- C1 witness: a concrete preview run renaming a.txt to the deconflicted
b_1.txt has pairwise distinct returned paths and its returned path r/b_1.txt
is not a pre-existing filesystem entry. -/
theorem C1_deconfliction_uniqueness_witness :
    (((rename_items ["r"] tOne rowsOne [] true okAll s0One).2.2).map
        Ev.chosen).Nodup ∧
    (⟨false, ["r", "a.txt"], ["r", "b_1.txt"]⟩ : Ev).chosen ∉ s0One.fs :=
  ⟨(C1_deconfliction_uniqueness ["r"] tOne rowsOne [] true okAll s0One).1,
    (C1_deconfliction_uniqueness ["r"] tOne rowsOne [] true okAll s0One).2
      ⟨false, ["r", "a.txt"], ["r", "b_1.txt"]⟩ (by decide)⟩

theorem pre_len {a b : FsPath} (h : a <+: b) : a.length ≤ b.length := by
  obtain ⟨t, rfl⟩ := h
  simp

theorem pre_app (a t : FsPath) : a <+: a ++ t :=
  ⟨t, rfl⟩

theorem pre_trans {a b c : FsPath} (h1 : a <+: b) (h2 : b <+: c) : a <+: c := by
  obtain ⟨t1, rfl⟩ := h1
  obtain ⟨t2, rfl⟩ := h2
  exact ⟨t1 ++ t2, (List.append_assoc a t1 t2).symm⟩

theorem pre_eq_of_len {a b : FsPath} (h : a <+: b) (hl : b.length ≤ a.length) :
    a = b := by
  obtain ⟨t, rfl⟩ := h
  have ht : t.length = 0 := by
    rw [List.length_append] at hl
    omega
  rw [List.length_eq_zero] at ht
  rw [ht, List.append_nil]

theorem pre_take {a b : FsPath} (h : a <+: b) : b.take a.length = a := by
  obtain ⟨t, rfl⟩ := h
  exact List.take_left a t

theorem two_ext_eq {p : FsPath} {x y : String} {q : FsPath}
    (h1 : (p ++ [x]) <+: q) (h2 : (p ++ [y]) <+: q) : x = y := by
  have e1 := pre_take h1
  have e2 := pre_take h2
  have hl : (p ++ [x]).length = (p ++ [y]).length := by simp
  rw [hl] at e1
  have h3 := List.append_cancel_left (e1.symm.trans e2)
  simpa using h3

theorem planned_shape {fm dm : List (String × String)} {e : WalkEntry} {x : FsPath}
    (h : x ∈ plannedOlds fm dm e) : ∃ n, x = e.root ++ [n] := by
  unfold plannedOlds at h
  rcases List.mem_append.1 h with h1 | h1 <;>
    · obtain ⟨f, _, rfl⟩ := List.mem_map.1 h1
      exact ⟨f, rfl⟩

theorem planned_len {fm dm : List (String × String)} {e : WalkEntry} {x : FsPath}
    (h : x ∈ plannedOlds fm dm e) : x.length = e.root.length + 1 := by
  obtain ⟨n, rfl⟩ := planned_shape h
  simp

theorem planned_pairwise (fm dm : List (String × String)) (e : WalkEntry) :
    List.Pairwise noAnc (plannedOlds fm dm e) := by
  apply List.pairwise_of_forall_mem_list
  intro a ha b hb hcon
  obtain ⟨hpre, hne⟩ := hcon
  have l1 := planned_len ha
  have l2 := planned_len hb
  exact hne (pre_eq_of_len hpre (by omega))

theorem walkForest_root : ∀ (ds : FSForest) (p : FsPath),
    ∀ e ∈ walkForest p ds, ∃ n, n ∈ dirNames ds ∧ (p ++ [n]) <+: e.root
  | .nil, p => by
    intro e he
    simp [walkForest] at he
  | .cons (.node n fls dirs) ds, p => by
    intro e he
    rw [walkForest] at he
    rcases List.mem_append.1 he with h1 | h1
    · rcases List.mem_append.1 h1 with h2 | h2
      · obtain ⟨m, _, hpre⟩ := walkForest_root dirs (p ++ [n]) e h2
        exact ⟨n, by simp [dirNames], pre_trans (pre_app (p ++ [n]) [m]) hpre⟩
      · rw [List.mem_singleton] at h2
        subst h2
        exact ⟨n, by simp [dirNames], ⟨[], List.append_nil _⟩⟩
    · obtain ⟨m, hm, hpre⟩ := walkForest_root ds p e h1
      exact ⟨m, by simp [dirNames, hm], hpre⟩

theorem mem_forest_flatten {fm dm : List (String × String)} {ds : FSForest}
    {p : FsPath} {x : FsPath}
    (hx : x ∈ ((walkForest p ds).map (plannedOlds fm dm)).flatten) :
    (∃ n, n ∈ dirNames ds ∧ (p ++ [n]) <+: x) ∧ p.length + 2 ≤ x.length := by
  rw [List.mem_flatten] at hx
  obtain ⟨l, hl, hxl⟩ := hx
  obtain ⟨e, he, rfl⟩ := List.mem_map.1 hl
  obtain ⟨n0, hn0, hpre⟩ := walkForest_root ds p e he
  obtain ⟨m, rfl⟩ := planned_shape hxl
  refine ⟨⟨n0, hn0, pre_trans hpre (pre_app e.root [m])⟩, ?_⟩
  have hle := pre_len hpre
  simp only [List.length_append, List.length_cons, List.length_nil] at hle ⊢
  omega

theorem pairForest (fm dm : List (String × String)) :
    ∀ (ds : FSForest) (p : FsPath), wfF ds = true →
      List.Pairwise noAnc (((walkForest p ds).map (plannedOlds fm dm)).flatten)
  | .nil, p => by
    intro _
    simp [walkForest]
  | .cons (.node n fls dirs) ds, p => by
    intro hwf
    rw [wfF] at hwf
    simp only [Bool.and_eq_true, decide_eq_true_eq] at hwf
    obtain ⟨⟨hw1, hw2⟩, hw3⟩ := hwf
    have IH1 := pairForest fm dm dirs (p ++ [n]) hw1
    have IH2 := pairForest fm dm ds p hw3
    rw [walkForest]
    rw [List.map_append, List.flatten_append, List.map_append, List.flatten_append]
    simp only [List.map_cons, List.map_nil, List.flatten_cons, List.flatten_nil,
      List.append_nil]
    rw [List.pairwise_append]
    refine ⟨?_, IH2, ?_⟩
    · rw [List.pairwise_append]
      refine ⟨IH1, planned_pairwise fm dm _, ?_⟩
      intro a ha b hb hcon
      obtain ⟨hpre, _⟩ := hcon
      have ha2 := (mem_forest_flatten ha).2
      have hb2 := planned_len hb
      have := pre_len hpre
      simp only [List.length_append, List.length_cons, List.length_nil] at ha2 hb2
      omega
    · intro a ha b hb hcon
      obtain ⟨hpre, _⟩ := hcon
      have hpn : (p ++ [n]) <+: a := by
        rcases List.mem_append.1 ha with h1 | h1
        · obtain ⟨⟨n0, _, hp0⟩, _⟩ := mem_forest_flatten h1
          exact pre_trans (pre_app (p ++ [n]) [n0]) hp0
        · obtain ⟨m, rfl⟩ := planned_shape h1
          exact pre_app (p ++ [n]) [m]
      obtain ⟨⟨n', hn', hp'⟩, _⟩ := mem_forest_flatten hb
      exact hw2 (two_ext_eq (pre_trans hpn hpre) hp' ▸ hn')

theorem pairTree (fm dm : List (String × String)) (t : FSTree) (p : FsPath)
    (hwf : wfT t = true) :
    List.Pairwise noAnc (((walkBU p t).map (plannedOlds fm dm)).flatten) := by
  rcases t with ⟨n, fls, dirs⟩
  rw [walkBU]
  rw [List.map_append, List.flatten_append]
  simp only [List.map_cons, List.map_nil, List.flatten_cons, List.flatten_nil,
    List.append_nil]
  rw [List.pairwise_append]
  refine ⟨pairForest fm dm dirs p (by rw [wfT] at hwf; exact hwf),
    planned_pairwise fm dm _, ?_⟩
  intro a ha b hb hcon
  obtain ⟨hpre, _⟩ := hcon
  have ha2 := (mem_forest_flatten ha).2
  have hb2 := planned_len hb
  have := pre_len hpre
  simp only [List.length_append, List.length_cons, List.length_nil] at hb2
  omega

theorem fileStep_trace (fm : List (String × String)) (dry : Bool)
    (rerr : FsPath → FsPath → Option String) (root : FsPath) (f : String)
    (w : WalkState) :
    (fileStep fm dry rerr root f w).trace.map Ev.old =
      if (lookupMap fm (pySplit f).1).isSome
      then w.trace.map Ev.old ++ [root ++ [f]]
      else w.trace.map Ev.old := by
  unfold fileStep
  rcases h : lookupMap fm (pySplit f).1 with _ | mapped
  · simp
  · simp only [h, Option.isSome_some, if_true]
    rcases dry with _ | _
    · simp only [Bool.false_eq_true, if_false]
      rcases hr : rerr (root ++ [f])
          (get_unique_path w.st (root ++ [f]) (root ++ [mapped ++ (pySplit f).2])).1
        with _ | cause <;> simp [hr]
    · simp

theorem dirStep_trace (dm : List (String × String)) (dry : Bool)
    (rerr : FsPath → FsPath → Option String) (root : FsPath) (d : String)
    (w : WalkState) :
    (dirStep dm dry rerr root d w).trace.map Ev.old =
      if (lookupMap dm d).isSome
      then w.trace.map Ev.old ++ [root ++ [d]]
      else w.trace.map Ev.old := by
  unfold dirStep
  rcases h : lookupMap dm d with _ | mapped
  · simp
  · simp only [h, Option.isSome_some, if_true]
    rcases dry with _ | _
    · simp only [Bool.false_eq_true, if_false]
      rcases hr : rerr (root ++ [d])
          (get_unique_path w.st (root ++ [d]) (root ++ [mapped])).1
        with _ | cause <;> simp [hr]
    · simp

theorem runFiles_trace (fm : List (String × String)) (dry : Bool)
    (rerr : FsPath → FsPath → Option String) (root : FsPath) :
    ∀ (l : List String) (w : WalkState),
    (runFiles fm dry rerr root l w).trace.map Ev.old =
      w.trace.map Ev.old ++
        (l.filter (fun f => (lookupMap fm (pySplit f).1).isSome)).map
          (fun f => root ++ [f]) := by
  intro l
  induction l with
  | nil => intro w; simp [runFiles]
  | cons f rest ih =>
    intro w
    rw [runFiles, ih, fileStep_trace, List.filter_cons]
    by_cases h : (lookupMap fm (pySplit f).1).isSome
    · simp [h]
    · simp [h]

theorem runDirs_trace (dm : List (String × String)) (dry : Bool)
    (rerr : FsPath → FsPath → Option String) (root : FsPath) :
    ∀ (l : List String) (w : WalkState),
    (runDirs dm dry rerr root l w).trace.map Ev.old =
      w.trace.map Ev.old ++
        (l.filter (fun d => (lookupMap dm d).isSome)).map (fun d => root ++ [d]) := by
  intro l
  induction l with
  | nil => intro w; simp [runDirs]
  | cons d rest ih =>
    intro w
    rw [runDirs, ih, dirStep_trace, List.filter_cons]
    by_cases h : (lookupMap dm d).isSome
    · simp [h]
    · simp [h]

theorem runWalk_trace (fm dm : List (String × String)) (dry : Bool)
    (rerr : FsPath → FsPath → Option String) :
    ∀ (l : List WalkEntry) (w : WalkState),
    (runWalk fm dm dry rerr l w).trace.map Ev.old =
      w.trace.map Ev.old ++ (l.map (plannedOlds fm dm)).flatten := by
  intro l
  induction l with
  | nil => intro w; simp [runWalk]
  | cons e rest ih =>
    intro w
    rw [runWalk, ih]
    have hent : (runEntry fm dm dry rerr e w).trace.map Ev.old =
        w.trace.map Ev.old ++ plannedOlds fm dm e := by
      unfold runEntry plannedOlds
      rw [runDirs_trace, runFiles_trace, List.append_assoc]
    rw [hent]
    simp [List.append_assoc]

/-- C2: bottom-up ordering.  In the trace of attempted renames of any run
(any mode, any failure behaviour, any mapping tables), no event is followed
by an event whose old path lies strictly below the first event's old path:
for every directory D, every rename attempted on a descendant of D comes
before the rename attempted on D itself.  The hypothesis is that sibling
directory names in the walked tree are distinct, which holds of any real
directory listing. -/
theorem C2_bottom_up_order (rootPath : FsPath) (t : FSTree)
    (fileRows folderRows : List (String × String)) (dry_run : Bool)
    (rerr : FsPath → FsPath → Option String) (s : ModState)
    (hwf : wfT t = true) :
    List.Pairwise (fun a b => noAnc a.old b.old)
      (rename_items rootPath t fileRows folderRows dry_run rerr s).2.2 := by
  show List.Pairwise (fun a b => noAnc a.old b.old)
    (runWalk (buildMap fileRows) (buildMap folderRows) dry_run rerr
      (walkBU rootPath t) ⟨s, 0, 0, []⟩).trace
  have h2 : List.Pairwise noAnc
      ((runWalk (buildMap fileRows) (buildMap folderRows) dry_run rerr
        (walkBU rootPath t) ⟨s, 0, 0, []⟩).trace.map Ev.old) := by
    rw [runWalk_trace]
    simpa using pairTree (buildMap fileRows) (buildMap folderRows) t rootPath hwf
  exact (List.pairwise_map).1 h2

/-- C2 witness: on the concrete tree with OldFolder containing doc.pdf and
the mappings doc to final and OldFolder to NewFolder, the walked tree is
well formed and the run's rename attempts are never ancestor-first: the file
inside OldFolder is attempted before OldFolder itself. -/
theorem C2_bottom_up_order_witness :
    wfT (FSTree.node "r" [] (.cons (.node "OldFolder" ["doc.pdf"] .nil) .nil)) =
      true ∧
    List.Pairwise (fun a b => noAnc a.old b.old)
      (rename_items ["r"]
        (FSTree.node "r" [] (.cons (.node "OldFolder" ["doc.pdf"] .nil) .nil))
        [("doc", "final")] [("OldFolder", "NewFolder")] false okAll
        ⟨[["r"], ["r", "OldFolder"], ["r", "OldFolder", "doc.pdf"]],
          [], [], []⟩).2.2 :=
  ⟨by decide,
    C2_bottom_up_order ["r"]
      (FSTree.node "r" [] (.cons (.node "OldFolder" ["doc.pdf"] .nil) .nil))
      [("doc", "final")] [("OldFolder", "NewFolder")] false okAll
      ⟨[["r"], ["r", "OldFolder"], ["r", "OldFolder", "doc.pdf"]], [], [], []⟩
      (by decide)⟩
